import Mathlib

/-!
Shallow embedding of `src/share/log_monitor.hpp` (class `log_monitor`).

The embedding models:

* the bounded sorted buffer `initial_lines_` (`std::vector<std::pair<uint64_t, std::string>>`)
  and its insertion routine `add_initial_line` plus the cap-eviction loop of
  `add_initial_lines` (`max_initial_lines = 250`);
* the per-file read offsets `read_position_` (`std::unordered_map<std::string, std::streampos>`),
  modelled as a function `String → Option Int` (a `std::streampos` is an integer byte
  position, and it can legitimately hold the failure value `-1`, see below);
* the construction-time historical scan `add_initial_lines`;
* the incremental read `call_callback`, and the timer event handler (one `tick`).

External collaborators are parameters of the model:

* `spdlog_utility::get_sort_key` is an arbitrary `SortKeyExtractor : String → Option Nat`
  (`uint64_t` keys are only ever compared, never subjected to arithmetic, so `Nat` is a
  faithful carrier);
* `filesystem::file_size` and the contents a `std::ifstream` sees are both derived from a
  filesystem valuation `fs : String → Option Content` (`none` = the file does not exist /
  cannot be opened; `some c` = the file's bytes are `c`).

Stream semantics used by the embedding (C++ `std::ifstream` as used in the source):

* `std::getline(stream, line)` reads characters up to and including the next `'\n'`
  (the terminator is consumed and not stored).  If end-of-file is reached after at least
  one character was extracted, the line IS produced and only `eofbit` is set.  If no
  character could be extracted, `failbit` (and `eofbit`) are set and the loop guard
  `while (std::getline(...))` (which tests `!fail()`) exits.
* `stream.tellg()` first constructs a sentry; if the stream is not `good()` (in particular
  when `eofbit` is set after reading a final unterminated line) the sentry sets `failbit`
  and `tellg()` returns `std::streampos(-1)`.  Otherwise it returns the current byte
  position.
* `stream.seekg(p)` with a negative `p` fails and sets `failbit`, after which every
  `getline` fails immediately (zero loop iterations).
* A default-constructed `std::streampos` is byte position `0`.

`read_lines_aux remaining curLineRev pos rp` is the `while (std::getline(stream, line))`
loop of `call_callback` / `add_initial_lines` with `getline` inlined: `remaining` are the
unread bytes, `curLineRev` the (reversed) characters of the line being assembled, `pos` the
byte position of the next unread character, and `rp` the running value of the local
variable `read_position` (last `tellg()` result, initially the default `0`).  Its result is
the list of lines handed to the loop body (callback / `add_initial_line`) in order, and the
final value of `read_position`:

* `[] , []`   : `getline` extracts nothing, sets `failbit`; loop exits, `rp` keeps its value;
* `[] , c::cur`: `getline` returns the unterminated tail with `eofbit` set, the loop body
  runs for it, and the following `tellg()` yields `-1` (and sets `failbit`, so the next
  `getline` fails and the loop exits with `read_position = -1`);
* `'\n'` head : the assembled line is complete, the loop body runs, `tellg()` = position
  just after the terminator;
* other head  : the character is appended to the line being assembled.
-/

namespace LogMonitor

/-- Bytes of a file. -/
abbrev Content := List Char

/-- External collaborator `spdlog_utility::get_sort_key`. -/
abbrev SortKeyExtractor := String → Option Nat

/-- One entry of `initial_lines_`: `(sort key, line)`. -/
abbrev Entry := Nat × String

/-- `const size_t max_initial_lines = 250;` (log_monitor.hpp:83). -/
def max_initial_lines : Nat := 250

/-- The insertion loop of `add_initial_line` (log_monitor.hpp:111-116): walk the buffer and
insert the new entry immediately before the first entry whose key is strictly greater than
`k`; if there is none, `push_back` (log_monitor.hpp:118). -/
def insert_before (k : Nat) (line : String) : List Entry → List Entry
  | [] => [(k, line)]
  | e :: rest => if k < e.1 then (k, line) :: e :: rest else e :: insert_before k line rest

/-- `add_initial_line` (log_monitor.hpp:94-123).  Returns the new buffer and the `bool`
result of the C++ function (`true` = a line was inserted). -/
def add_initial_line (gsk : SortKeyExtractor) (buf : List Entry) (line : String) :
    List Entry × Bool :=
  match gsk line with
  | none => (buf, false)
  | some k =>
    match buf with
    | [] => ([(k, line)], true)
    | e :: rest =>
      if k < e.1 then
        -- line is too old
        (e :: rest, false)
      else if ((e :: rest).getLast (List.cons_ne_nil e rest)).1 < k then
        (e :: rest ++ [(k, line)], true)
      else
        (insert_before k line (e :: rest), true)

/-- `while (initial_lines_.size() > max_initial_lines) initial_lines_.erase(initial_lines_.begin());`
(log_monitor.hpp:84-86). -/
def cap_initial_lines : List Entry → List Entry
  | [] => []
  | e :: rest =>
    if max_initial_lines < (e :: rest).length then cap_initial_lines rest else e :: rest

/-- The body of the historical-scan loop for one line (log_monitor.hpp:82-87):
`add_initial_line` followed, when it returned `true`, by the cap-eviction loop. -/
def scan_line (gsk : SortKeyExtractor) (buf : List Entry) (line : String) : List Entry :=
  let r := add_initial_line gsk buf line
  if r.2 then cap_initial_lines r.1 else r.1

/-- The `while (std::getline(stream, line))` loop shared by `add_initial_lines`
(log_monitor.hpp:81-89) and `call_callback` (log_monitor.hpp:148-153), with `getline`
inlined; see the file header for the case-by-case correspondence with the C++ stream
semantics.  Returns the lines handed to the loop body, in order, and the final value of
the local `read_position`. -/
def read_lines_aux : List Char → List Char → Nat → Int → List String × Int
  | [], [], _, rp => ([], rp)
  | [], c :: cur, _, _ => ([String.mk ((c :: cur).reverse)], -1)
  | c :: rest, cur, pos, rp =>
    if c = '\n' then
      let r := read_lines_aux rest [] (pos + 1) (((pos + 1 : Nat)) : Int)
      (String.mk cur.reverse :: r.1, r.2)
    else
      read_lines_aux rest (c :: cur) (pos + 1) rp

/-- The mutable state of a `log_monitor` object: `initial_lines_`, `read_position_`
and `files_` (log_monitor.hpp:164-166). -/
structure State where
  initial_lines : List Entry
  read_position : String → Option Int
  files : List String

/-- `read_position_[file_path] = v;` -/
def set_read_position (st : State) (path : String) (v : Int) : State :=
  { st with read_position := fun p => if p = path then some v else st.read_position p }

/-- `add_initial_lines` (log_monitor.hpp:76-92).  The stream is opened without checking
for success: on a missing file every `getline` fails at once, the loop body never runs,
and `read_position_[file_path]` is still assigned the default-constructed position `0`. -/
def add_initial_lines (gsk : SortKeyExtractor) (fs : String → Option Content)
    (st : State) (path : String) : State :=
  let r : List String × Int :=
    match fs path with
    | none => ([], 0)
    | some content => read_lines_aux content [] 0 0
  { set_read_position st path r.2 with
      initial_lines := r.1.foldl (scan_line gsk) st.initial_lines }

/-- `call_callback` (log_monitor.hpp:125-156).  Returns the new state and the list of
lines passed to the callback, in invocation order.

The seek section (log_monitor.hpp:134-141) seeks only when an offset entry exists and it
is `< *size`; `seekTo = none` means no `seekg` call was made and reading starts at the
beginning of the file.  A `seekg` with a negative position (the stored offset can be the
`tellg` failure value `-1`) fails and puts the stream into `failbit`, so the read loop
runs zero times and `read_position_[file_path]` is assigned the default `0`. -/
def call_callback (fs : String → Option Content) (st : State) (path : String) :
    State × List String :=
  match fs path with
  | none => (st, [])
  | some content =>
    let seekTo : Option Int :=
      match st.read_position path with
      | none => none
      | some off =>
        match fs path with
        | none => none
        | some c => if off < (c.length : Int) then some off else none
    match seekTo with
    | some off =>
      if off < 0 then
        (set_read_position st path 0, [])
      else
        let r := read_lines_aux (content.drop off.toNat) [] off.toNat 0
        (set_read_position st path r.2, r.1)
    | none =>
      let r := read_lines_aux content [] 0 0
      (set_read_position st path r.2, r.1)

/-- The body of the timer event handler for one monitored file (log_monitor.hpp:46-55):
if `filesystem::file_size` yields a size, an offset entry exists, and the entry differs
from the size, run `call_callback`.  The second component accumulates callback lines. -/
def tick_step (fs : String → Option Content) (acc : State × List String) (file : String) :
    State × List String :=
  match fs file with
  | none => acc
  | some c =>
    match acc.1.read_position file with
    | none => acc
    | some off =>
      if off ≠ (c.length : Int) then
        let r := call_callback fs acc.1 file
        (r.1, acc.2 ++ r.2)
      else acc

/-- One firing of the timer (log_monitor.hpp:45-56): the handler body applied to every
element of `files_`, in order. -/
def tick (fs : String → Option Content) (st : State) : State × List String :=
  st.files.foldl (tick_step fs) (st, [])

/-- The state component of one timer firing. -/
def tick_state (fs : String → Option Content) (st : State) : State := (tick fs st).1

/-- The constructor loop (log_monitor.hpp:30-35): for each target, scan `target + ".1.txt"`
then `target + ".txt"` and append the live file to `files_`. -/
def log_monitor_init (gsk : SortKeyExtractor) (fs : String → Option Content)
    (targets : List String) : State :=
  targets.foldl
    (fun st target =>
      let st1 := add_initial_lines gsk fs st (target ++ ".1.txt")
      let st2 := add_initial_lines gsk fs st1 (target ++ ".txt")
      { st2 with files := st2.files ++ [target ++ ".txt"] })
    ⟨[], fun _ => none, []⟩

/-- `get_initial_lines` (log_monitor.hpp:71-73). -/
def get_initial_lines (st : State) : List Entry := st.initial_lines

/-- Bytes of a file consisting of the newline-terminated lines `ls` followed by an
optional unterminated trailing fragment. -/
def encode_lines (ls : List String) (frag : Option String) : Content :=
  (ls.map (fun l => l.toList ++ ['\n'])).flatten ++ ((frag.map String.toList).getD [])

/-- Total byte length of the newline-terminated lines `ls`. -/
def tlen (ls : List String) : Nat := (ls.map (fun l => l.toList.length + 1)).sum

/-- `initial_lines_` sorted non-decreasing by sort key. -/
def sorted_by_key (l : List Entry) : Prop :=
  List.Pairwise (fun a b : Entry => a.1 ≤ b.1) l

instance (l : List Entry) : Decidable (sorted_by_key l) := by
  unfold sorted_by_key; infer_instance

/-! ### Concrete instances used for instantiating the general theorems -/

/-- A concrete sort-key extractor: the line's length as its key. -/
def gsk_len : SortKeyExtractor := fun s => some s.length

/-- A concrete sort-key extractor that never yields a key (every line unparseable). -/
def gsk_none : SortKeyExtractor := fun _ => none

/-- A filesystem holding exactly one file. -/
def single_fs (path : String) (c : Content) : String → Option Content :=
  fun p => if p = path then some c else none

/-- A state with one monitored file and one offset entry for it. -/
def single_state (path : String) (off : Int) : State :=
  ⟨[], fun p => if p = path then some off else none, [path]⟩

/-- A state with one monitored file and no offset entry. -/
def no_entry_state (path : String) : State := ⟨[], fun _ => none, [path]⟩

/-! ### Lemmas about the buffer operations -/

lemma insert_before_eq_takeWhile_dropWhile (k : Nat) (line : String) (l : List Entry) :
    insert_before k line l
      = l.takeWhile (fun e => decide (e.1 ≤ k)) ++
          (k, line) :: l.dropWhile (fun e => decide (e.1 ≤ k)) := by
  induction l with
  | nil => simp [insert_before]
  | cons a rest ih =>
    by_cases hk : k < a.1
    · have hd : decide (a.1 ≤ k) = false := by simp; omega
      simp [insert_before, hk, List.takeWhile_cons, List.dropWhile_cons, hd]
    · have hd : decide (a.1 ≤ k) = true := by simp; omega
      simp [insert_before, hk, List.takeWhile_cons, List.dropWhile_cons, hd, ih]

lemma insert_before_length (k : Nat) (line : String) (l : List Entry) :
    (insert_before k line l).length = l.length + 1 := by
  induction l with
  | nil => simp [insert_before]
  | cons a rest ih =>
    by_cases hk : k < a.1 <;> simp [insert_before, hk, ih]

lemma mem_insert_before {k : Nat} {line : String} {l : List Entry} {e : Entry}
    (h : e ∈ insert_before k line l) : e = (k, line) ∨ e ∈ l := by
  induction l with
  | nil => simpa [insert_before] using h
  | cons a rest ih =>
    by_cases hk : k < a.1
    · simp [insert_before, hk] at h
      rcases h with h | h | h
      · exact Or.inl (by simp [h])
      · exact Or.inr (by simp [h])
      · exact Or.inr (by simp [h])
    · simp [insert_before, hk] at h
      rcases h with h | h
      · exact Or.inr (by simp [h])
      · rcases ih h with h | h
        · exact Or.inl h
        · exact Or.inr (by simp [h])

lemma sorted_insert_before {k : Nat} {line : String} {l : List Entry}
    (hs : sorted_by_key l) :
    sorted_by_key (insert_before k line l) := by
  induction l with
  | nil => simp [insert_before, sorted_by_key]
  | cons a rest ih =>
    rw [sorted_by_key, List.pairwise_cons] at hs
    by_cases hk : k < a.1
    · rw [sorted_by_key] at *
      simp only [insert_before, if_pos hk]
      rw [List.pairwise_cons]
      constructor
      · intro b hb
        rcases hb with _ | hb
        · omega
        · have := hs.1 b (by assumption)
          omega
      · rw [List.pairwise_cons]
        exact hs
    · rw [sorted_by_key] at *
      simp only [insert_before, if_neg hk]
      rw [List.pairwise_cons]
      constructor
      · intro b hb
        rcases mem_insert_before hb with h | h
        · subst h; omega
        · exact hs.1 b h
      · exact ih hs.2

lemma sorted_le_getLast {l : List Entry} (hs : sorted_by_key l) (h : l ≠ []) :
    ∀ e ∈ l, e.1 ≤ (l.getLast h).1 := by
  induction l with
  | nil => simp at h
  | cons a rest ih =>
    rw [sorted_by_key, List.pairwise_cons] at hs
    intro e he
    cases rest with
    | nil =>
      simp at he
      simp [he]
    | cons b rest' =>
      rw [List.getLast_cons (by simp)]
      rcases he with _ | he
      · exact le_trans (hs.1 _ (List.getLast_mem _)) (le_refl _)
      · exact ih hs.2 (by simp) e (by assumption)

lemma add_initial_line_sorted (gsk : SortKeyExtractor) (buf : List Entry) (line : String)
    (hs : sorted_by_key buf) : sorted_by_key (add_initial_line gsk buf line).1 := by
  rw [add_initial_line]
  cases hk : gsk line with
  | none => exact hs
  | some k =>
    cases buf with
    | nil => simp [sorted_by_key]
    | cons e rest =>
      by_cases h1 : k < e.1
      · simpa [h1] using hs
      · simp only [if_neg h1]
        by_cases h2 : ((e :: rest).getLast (List.cons_ne_nil e rest)).1 < k
        · simp only [if_pos h2]
          rw [sorted_by_key, List.pairwise_append]
          refine ⟨hs, by simp, ?_⟩
          intro a ha b hb
          simp at hb
          have := sorted_le_getLast hs (List.cons_ne_nil e rest) a ha
          simp [hb]
          omega
        · simp only [if_neg h2]
          exact sorted_insert_before hs

lemma add_initial_line_length (gsk : SortKeyExtractor) (buf : List Entry) (line : String) :
    (add_initial_line gsk buf line).1.length ≤ buf.length + 1 := by
  rw [add_initial_line]
  cases hk : gsk line with
  | none => simp
  | some k =>
    cases buf with
    | nil => simp
    | cons e rest =>
      by_cases h1 : k < e.1
      · simp [h1]
      · simp only [if_neg h1]
        by_cases h2 : ((e :: rest).getLast (List.cons_ne_nil e rest)).1 < k
        · simp [h2]
        · simp [h2, insert_before_length]

lemma add_initial_line_false (gsk : SortKeyExtractor) (buf : List Entry) (line : String)
    (h : (add_initial_line gsk buf line).2 = false) :
    (add_initial_line gsk buf line).1 = buf := by
  rw [add_initial_line] at *
  cases hk : gsk line with
  | none => rfl
  | some k =>
    rw [hk] at h
    cases buf with
    | nil => simp at h
    | cons e rest =>
      by_cases h1 : k < e.1
      · simp [h1]
      · simp only [if_neg h1] at h ⊢
        by_cases h2 : ((e :: rest).getLast (List.cons_ne_nil e rest)).1 < k
        · simp [h2] at h
        · simp [h2] at h

lemma cap_initial_lines_length (l : List Entry) :
    (cap_initial_lines l).length = min l.length max_initial_lines := by
  induction l with
  | nil => simp [cap_initial_lines, max_initial_lines]
  | cons e rest ih =>
    rw [cap_initial_lines]
    split
    · rw [ih]
      simp only [List.length_cons, max_initial_lines] at *
      omega
    · simp only [List.length_cons, max_initial_lines] at *
      omega

lemma cap_initial_lines_sorted {l : List Entry} (hs : sorted_by_key l) :
    sorted_by_key (cap_initial_lines l) := by
  induction l with
  | nil => simpa [cap_initial_lines] using hs
  | cons e rest ih =>
    rw [cap_initial_lines]
    split
    · rw [sorted_by_key, List.pairwise_cons] at hs
      exact ih hs.2
    · exact hs

lemma scan_line_inv (gsk : SortKeyExtractor) (buf : List Entry) (line : String)
    (hs : sorted_by_key buf) (hlen : buf.length ≤ 250) :
    sorted_by_key (scan_line gsk buf line) ∧ (scan_line gsk buf line).length ≤ 250 := by
  rw [scan_line]
  cases h : (add_initial_line gsk buf line).2
  · simp only [Bool.false_eq_true, if_false]
    rw [add_initial_line_false gsk buf line h]
    exact ⟨hs, hlen⟩
  · simp only [if_true]
    constructor
    · exact cap_initial_lines_sorted (add_initial_line_sorted gsk buf line hs)
    · rw [cap_initial_lines_length]
      simp [max_initial_lines]

/-! ### C1 -/

/-- C1: starting from the empty buffer, after every insertion performed by the historical
scan (`add_initial_line` followed by the cap-eviction loop, i.e. `scan_line`) the buffer
`initial_lines_` is sorted non-decreasing by sort key and holds at most 250 entries.  The
state of the buffer after any individual insertion is the fold over the corresponding
prefix of the inserted lines, so quantifying over all line sequences covers "after every
insertion". -/
theorem C1_insertion_invariant (gsk : SortKeyExtractor) (lines : List String) :
    sorted_by_key (lines.foldl (scan_line gsk) []) ∧
      (lines.foldl (scan_line gsk) []).length ≤ 250 := by
  have main : ∀ (ls : List String) (buf : List Entry),
      sorted_by_key buf → buf.length ≤ 250 →
      sorted_by_key (ls.foldl (scan_line gsk) buf) ∧
        (ls.foldl (scan_line gsk) buf).length ≤ 250 := by
    intro ls
    induction ls with
    | nil => intro buf h1 h2; exact ⟨h1, h2⟩
    | cons l rest ih =>
      intro buf h1 h2
      have h := scan_line_inv gsk buf l h1 h2
      exact ih _ h.1 h.2
  exact main lines [] (by simp [sorted_by_key]) (by simp)

/-! ### C6 and C7 -/

lemma takeWhile_all {α : Type} (p : α → Bool) (l : List α) (h : ∀ a ∈ l, p a = true) :
    l.takeWhile p = l := by
  induction l with
  | nil => simp
  | cons a rest ih =>
    rw [List.takeWhile_cons, if_pos (h a (by simp))]
    rw [ih (fun b hb => h b (by simp [hb]))]

lemma dropWhile_all {α : Type} (p : α → Bool) (l : List α) (h : ∀ a ∈ l, p a = true) :
    l.dropWhile p = [] := by
  induction l with
  | nil => simp
  | cons a rest ih =>
    rw [List.dropWhile_cons, if_pos (h a (by simp))]
    exact ih (fun b hb => h b (by simp [hb]))

lemma dropWhile_key_gt {k : Nat} {l : List Entry} (hs : sorted_by_key l) :
    ∀ e ∈ l.dropWhile (fun e => decide (e.1 ≤ k)), k < e.1 := by
  induction l with
  | nil => simp
  | cons a rest ih =>
    rw [sorted_by_key, List.pairwise_cons] at hs
    by_cases ha : a.1 ≤ k
    · rw [List.dropWhile_cons, if_pos (by simpa using ha)]
      exact ih hs.2
    · rw [List.dropWhile_cons, if_neg (by simpa using ha)]
      intro e he
      rcases List.mem_cons.mp he with rfl | he
      · omega
      · have := hs.1 e he
        omega

/-- C6: when a line whose extractor key equals `k` is successfully inserted, it is placed
immediately before the first buffered entry whose key is strictly greater than `k`
(the buffer splits as `takeWhile (key ≤ k) ++ new entry ++ dropWhile (key ≤ k)`); in
particular, among the entries whose key equals `k`, the newly inserted line comes after
every previously inserted one, so equal-key lines keep their insertion order. -/
theorem C6_equal_key_stability (gsk : SortKeyExtractor) (buf : List Entry) (line : String)
    (k : Nat) (hs : sorted_by_key buf) (hk : gsk line = some k)
    (hins : (add_initial_line gsk buf line).2 = true) :
    (add_initial_line gsk buf line).1
        = buf.takeWhile (fun e => decide (e.1 ≤ k)) ++
            (k, line) :: buf.dropWhile (fun e => decide (e.1 ≤ k)) ∧
      (add_initial_line gsk buf line).1.filter (fun e => decide (e.1 = k))
        = buf.filter (fun e => decide (e.1 = k)) ++ [(k, line)] := by
  have hmain : (add_initial_line gsk buf line).1
      = buf.takeWhile (fun e => decide (e.1 ≤ k)) ++
          (k, line) :: buf.dropWhile (fun e => decide (e.1 ≤ k)) := by
    rw [add_initial_line, hk]
    cases buf with
    | nil => simp
    | cons e rest =>
      by_cases h1 : k < e.1
      · rw [add_initial_line, hk] at hins
        simp [h1] at hins
      · simp only [if_neg h1]
        by_cases h2 : ((e :: rest).getLast (List.cons_ne_nil e rest)).1 < k
        · simp only [if_pos h2]
          have hall : ∀ a ∈ e :: rest, (fun x : Entry => decide (x.1 ≤ k)) a = true := by
            intro a ha
            have := sorted_le_getLast hs (List.cons_ne_nil e rest) a ha
            simp only [decide_eq_true_eq]
            omega
          rw [takeWhile_all _ _ hall, dropWhile_all _ _ hall]
        · simp only [if_neg h2]
          exact insert_before_eq_takeWhile_dropWhile k line (e :: rest)
  refine ⟨hmain, ?_⟩
  rw [hmain]
  have hnil : (buf.dropWhile (fun e => decide (e.1 ≤ k))).filter
      (fun e => decide (e.1 = k)) = [] := by
    rw [List.filter_eq_nil_iff]
    intro a ha
    have := dropWhile_key_gt hs a ha
    simp only [decide_eq_true_eq]
    omega
  conv_rhs =>
    rw [← List.takeWhile_append_dropWhile
      (p := fun e : Entry => decide (e.1 ≤ k)) (l := buf)]
  rw [List.filter_append, List.filter_append, List.filter_cons, hnil]
  simp

/-- C6 witness: inserting `"b"` (key 1 under `gsk_len`) into the singleton buffer
`[(1, "a")]` places it after the equal-keyed earlier entry. -/
theorem C6_equal_key_stability_witness :
    (add_initial_line gsk_len [(1, "a")] "b").1
        = [(1, "a")].takeWhile (fun e => decide (e.1 ≤ 1)) ++
            (1, "b") :: [(1, "a")].dropWhile (fun e => decide (e.1 ≤ 1)) ∧
      (add_initial_line gsk_len [(1, "a")] "b").1.filter (fun e => decide (e.1 = 1))
        = [(1, "a")].filter (fun e => decide (e.1 = 1)) ++ [(1, "b")] :=
  C6_equal_key_stability gsk_len [(1, "a")] "b" 1 (by decide) (by decide) (by decide)

/-- C7: when the buffer is at its 250-entry capacity and a candidate line's key is
strictly smaller than every buffered key (in particular, smaller than the buffer's
minimum), the insertion step leaves the buffer unchanged and `add_initial_line`
reports `false`. -/
theorem C7_discard_below_min (gsk : SortKeyExtractor) (buf : List Entry) (line : String)
    (k : Nat) (hlen : buf.length = 250) (hk : gsk line = some k)
    (hmin : ∀ e ∈ buf, k < e.1) :
    scan_line gsk buf line = buf ∧ (add_initial_line gsk buf line).2 = false := by
  cases buf with
  | nil => simp at hlen
  | cons e rest =>
    have hke : k < e.1 := hmin e (by simp)
    have h : add_initial_line gsk (e :: rest) line = (e :: rest, false) := by
      rw [add_initial_line, hk]
      simp [hke]
    rw [scan_line, h]
    simp

/-- C7 witness: a full buffer of 250 entries with key 5; the line `"y"` has key 1 under
`gsk_len` and is discarded without changing the buffer. -/
theorem C7_discard_below_min_witness :
    scan_line gsk_len (List.replicate 250 ((5 : Nat), "x")) "y"
        = List.replicate 250 ((5 : Nat), "x") ∧
      (add_initial_line gsk_len (List.replicate 250 ((5 : Nat), "x")) "y").2 = false :=
  C7_discard_below_min gsk_len (List.replicate 250 ((5 : Nat), "x")) "y" 1
    (by rw [List.length_replicate]) (by decide)
    (by
      intro e he
      have := List.eq_of_mem_replicate he
      simp [this])

/-! ### Lemmas about the read loop -/

lemma mk_toList (s : String) : String.mk s.toList = s := rfl

lemma encode_lines_cons (l : String) (ls : List String) (frag : Option String) :
    encode_lines (l :: ls) frag = l.toList ++ '\n' :: encode_lines ls frag := by
  simp [encode_lines]

lemma encode_lines_length_none (ls : List String) :
    (encode_lines ls none).length = tlen ls := by
  induction ls with
  | nil => simp [encode_lines, tlen]
  | cons l ls' ih =>
    rw [encode_lines_cons]
    simp only [List.length_append, List.length_cons, tlen, List.map_cons, List.sum_cons] at *
    omega

lemma encode_lines_length_some (ls : List String) (f : String) :
    (encode_lines ls (some f)).length = tlen ls + f.toList.length := by
  induction ls with
  | nil => simp [encode_lines, tlen]
  | cons l ls' ih =>
    rw [encode_lines_cons]
    simp only [List.length_append, List.length_cons, tlen, List.map_cons, List.sum_cons] at *
    omega

lemma encode_lines_drop (ls₁ ls₂ : List String) (frag : Option String) :
    (encode_lines (ls₁ ++ ls₂) frag).drop (tlen ls₁) = encode_lines ls₂ frag := by
  induction ls₁ with
  | nil => simp [tlen]
  | cons l ls' ih =>
    rw [List.cons_append, encode_lines_cons]
    have h1 : l.toList ++ '\n' :: encode_lines (ls' ++ ls₂) frag
        = (l.toList ++ ['\n']) ++ encode_lines (ls' ++ ls₂) frag := by simp
    have h2 : tlen (l :: ls') = (l.toList ++ ['\n']).length + tlen ls' := by
      simp only [tlen, List.map_cons, List.sum_cons, List.length_append, List.length_cons,
        List.length_nil]
    rw [h1, h2, ← List.drop_drop, List.drop_left]
    exact ih

lemma read_lines_aux_terminated (cs : List Char) : '\n' ∉ cs →
    ∀ (rest cur : List Char) (pos : Nat) (rp : Int),
      read_lines_aux (cs ++ '\n' :: rest) cur pos rp
        = (String.mk (cur.reverse ++ cs) ::
             (read_lines_aux rest [] (pos + cs.length + 1)
               (((pos + cs.length + 1 : Nat)) : Int)).1,
           (read_lines_aux rest [] (pos + cs.length + 1)
             (((pos + cs.length + 1 : Nat)) : Int)).2) := by
  induction cs with
  | nil =>
    intro _ rest cur pos rp
    simp [read_lines_aux]
  | cons c cs' ih =>
    intro h rest cur pos rp
    have hc : ¬(c = '\n') := by
      intro hh
      exact h (by simp [hh])
    have h' : '\n' ∉ cs' := fun hh => h (by simp [hh])
    rw [List.cons_append]
    simp only [read_lines_aux, if_neg hc]
    rw [ih h' rest (c :: cur) (pos + 1) rp]
    have harith : pos + 1 + cs'.length + 1 = pos + (c :: cs').length + 1 := by
      simp only [List.length_cons]
      omega
    rw [harith]
    simp [List.append_assoc]

lemma read_lines_aux_unterminated (cs : List Char) : '\n' ∉ cs →
    ∀ (cur : List Char) (pos : Nat) (rp : Int), cur ≠ [] ∨ cs ≠ [] →
      read_lines_aux cs cur pos rp = ([String.mk (cur.reverse ++ cs)], -1) := by
  induction cs with
  | nil =>
    intro _ cur pos rp hne
    rcases hne with hne | hne
    · cases cur with
      | nil => simp at hne
      | cons c cur' => simp [read_lines_aux]
    · simp at hne
  | cons c cs' ih =>
    intro h cur pos rp _
    have hc : ¬(c = '\n') := by
      intro hh
      exact h (by simp [hh])
    have h' : '\n' ∉ cs' := fun hh => h (by simp [hh])
    simp only [read_lines_aux, if_neg hc]
    rw [ih h' (c :: cur) (pos + 1) rp (Or.inl (by simp))]
    simp [List.append_assoc]

lemma read_lines_aux_encode_terminated (ls : List String) :
    (∀ l ∈ ls, '\n' ∉ l.toList) →
    ∀ (pos : Nat) (rp : Int),
      read_lines_aux (encode_lines ls none) [] pos rp
        = (ls, if ls = [] then rp else ((pos + tlen ls : Nat) : Int)) := by
  induction ls with
  | nil =>
    intro _ pos rp
    simp [encode_lines, read_lines_aux]
  | cons l ls' ih =>
    intro h pos rp
    have hl : '\n' ∉ l.toList := h l (by simp)
    rw [encode_lines_cons, read_lines_aux_terminated l.toList hl _ [] pos rp]
    rw [ih (fun x hx => h x (by simp [hx])) (pos + l.toList.length + 1)
      (((pos + l.toList.length + 1 : Nat)) : Int)]
    by_cases hls' : ls' = []
    · subst hls'
      simp only [if_pos rfl, List.reverse_nil, List.nil_append, mk_toList]
      have heq : pos + l.toList.length + 1 = pos + tlen [l] := by
        simp only [tlen, List.map_cons, List.sum_cons, List.map_nil, List.sum_nil]
        omega
      rw [heq]
      simp
    · simp only [if_neg hls', List.reverse_nil, List.nil_append, mk_toList]
      have heq : pos + l.toList.length + 1 + tlen ls' = pos + tlen (l :: ls') := by
        simp only [tlen, List.map_cons, List.sum_cons]
        omega
      rw [heq]
      simp

lemma read_lines_aux_encode_fragment (ls : List String) (f : String) :
    (∀ l ∈ ls, '\n' ∉ l.toList) → '\n' ∉ f.toList → f.toList ≠ [] →
    ∀ (pos : Nat) (rp : Int),
      read_lines_aux (encode_lines ls (some f)) [] pos rp = (ls ++ [f], -1) := by
  induction ls with
  | nil =>
    intro _ hf hfne pos rp
    have henc : encode_lines [] (some f) = f.toList := by simp [encode_lines]
    rw [henc, read_lines_aux_unterminated f.toList hf [] pos rp (Or.inr hfne)]
    simp [mk_toList]
  | cons l ls' ih =>
    intro h hf hfne pos rp
    have hl : '\n' ∉ l.toList := h l (by simp)
    rw [encode_lines_cons, read_lines_aux_terminated l.toList hl _ [] pos rp]
    rw [ih (fun x hx => h x (by simp [hx])) hf hfne (pos + l.toList.length + 1)
      (((pos + l.toList.length + 1 : Nat)) : Int)]
    simp [mk_toList]

lemma read_lines_aux_of_nil_lines (cs : List Char) :
    ∀ (cur : List Char) (pos : Nat) (rp : Int),
      (read_lines_aux cs cur pos rp).1 = [] →
      read_lines_aux cs cur pos rp = ([], rp) ∧ cur = [] := by
  induction cs with
  | nil =>
    intro cur pos rp h
    cases cur with
    | nil => exact ⟨rfl, rfl⟩
    | cons c cur' => simp [read_lines_aux] at h
  | cons c rest ih =>
    intro cur pos rp h
    by_cases hc : c = '\n'
    · subst hc
      simp [read_lines_aux] at h
    · simp only [read_lines_aux, if_neg hc] at h ⊢
      rcases ih (c :: cur) (pos + 1) rp h with ⟨_, h2⟩
      simp at h2

/-! ### Lemmas about the state operations -/

lemma set_read_position_initial_lines (st : State) (path : String) (v : Int) :
    (set_read_position st path v).initial_lines = st.initial_lines := rfl

lemma set_read_position_files (st : State) (path : String) (v : Int) :
    (set_read_position st path v).files = st.files := rfl

lemma set_read_position_self (st : State) (path : String) (v : Int) :
    (set_read_position st path v).read_position path = some v := by
  simp [set_read_position]

lemma set_read_position_other (st : State) (path p : String) (v : Int) (h : p ≠ path) :
    (set_read_position st path v).read_position p = st.read_position p := by
  simp [set_read_position, h]

lemma call_callback_initial_lines (fs : String → Option Content) (st : State)
    (path : String) :
    (call_callback fs st path).1.initial_lines = st.initial_lines := by
  rw [call_callback]
  cases h : fs path with
  | none => rfl
  | some content =>
    dsimp only
    split
    · split <;> rfl
    · rfl

lemma call_callback_files (fs : String → Option Content) (st : State) (path : String) :
    (call_callback fs st path).1.files = st.files := by
  rw [call_callback]
  cases h : fs path with
  | none => rfl
  | some content =>
    dsimp only
    split
    · split <;> rfl
    · rfl

lemma tick_step_initial_lines (fs : String → Option Content) (acc : State × List String)
    (file : String) :
    (tick_step fs acc file).1.initial_lines = acc.1.initial_lines := by
  rw [tick_step]
  cases h : fs file with
  | none => rfl
  | some c =>
    dsimp only
    cases h2 : acc.1.read_position file with
    | none => rfl
    | some off =>
      dsimp only
      split
      · exact call_callback_initial_lines fs acc.1 file
      · rfl

lemma foldl_tick_step_initial_lines (fs : String → Option Content) (files : List String) :
    ∀ acc : State × List String,
      (files.foldl (tick_step fs) acc).1.initial_lines = acc.1.initial_lines := by
  induction files with
  | nil => intro acc; rfl
  | cons f rest ih =>
    intro acc
    rw [List.foldl_cons, ih, tick_step_initial_lines]

lemma tick_state_initial_lines (fs : String → Option Content) (st : State) :
    (tick_state fs st).initial_lines = st.initial_lines := by
  rw [tick_state, tick]
  exact foldl_tick_step_initial_lines fs st.files (st, [])

lemma call_callback_seek (fs : String → Option Content) (st : State) (path : String)
    (content : Content) (off : Int) (hopen : fs path = some content)
    (hrp : st.read_position path = some off) (h0 : 0 ≤ off)
    (hlt : off < (content.length : Int)) :
    call_callback fs st path
      = (set_read_position st path
           (read_lines_aux (content.drop off.toNat) [] off.toNat 0).2,
         (read_lines_aux (content.drop off.toNat) [] off.toNat 0).1) := by
  rw [call_callback, hopen, hrp]
  dsimp only
  rw [if_pos hlt]
  dsimp only
  rw [if_neg (by omega : ¬ off < 0)]

lemma call_callback_failed_seek (fs : String → Option Content) (st : State) (path : String)
    (content : Content) (off : Int) (hopen : fs path = some content)
    (hrp : st.read_position path = some off) (hneg : off < 0) :
    call_callback fs st path = (set_read_position st path 0, []) := by
  rw [call_callback, hopen, hrp]
  dsimp only
  rw [if_pos (by omega : off < (content.length : Int))]
  dsimp only
  rw [if_pos hneg]

lemma call_callback_no_entry (fs : String → Option Content) (st : State) (path : String)
    (content : Content) (hopen : fs path = some content)
    (hrp : st.read_position path = none) :
    call_callback fs st path
      = (set_read_position st path (read_lines_aux content [] 0 0).2,
         (read_lines_aux content [] 0 0).1) := by
  rw [call_callback, hopen, hrp]

lemma call_callback_large_offset (fs : String → Option Content) (st : State) (path : String)
    (content : Content) (off : Int) (hopen : fs path = some content)
    (hrp : st.read_position path = some off) (hge : ¬ off < (content.length : Int)) :
    call_callback fs st path
      = (set_read_position st path (read_lines_aux content [] 0 0).2,
         (read_lines_aux content [] 0 0).1) := by
  rw [call_callback, hopen, hrp]
  dsimp only
  rw [if_neg hge]

lemma tick_step_run (fs : String → Option Content) (st : State) (ls0 : List String)
    (file : String) (c : Content) (off : Int) (hfs : fs file = some c)
    (hrp : st.read_position file = some off) (hne : off ≠ (c.length : Int)) :
    tick_step fs (st, ls0) file
      = ((call_callback fs st file).1, ls0 ++ (call_callback fs st file).2) := by
  rw [tick_step, hfs]
  dsimp only
  rw [hrp]
  dsimp only
  rw [if_pos hne]

lemma set_read_position_collapse (st : State) (path : String) (v w : Int) :
    set_read_position (set_read_position st path v) path w
      = set_read_position st path w := by
  unfold set_read_position
  congr 1
  funext p
  by_cases h : p = path <;> simp [h]

/-! ### C5 -/

/-- C5: `get_initial_lines` returns the buffer computed once at construction, and no
sequence of subsequent timer ticks (each of which may run `call_callback` on any number
of monitored files) ever changes it: `call_callback` and the tick handler only touch
`read_position_`, never `initial_lines_`. -/
theorem C5_initial_lines_frozen (gsk : SortKeyExtractor) (fs : String → Option Content)
    (targets : List String) (k : Nat) :
    get_initial_lines ((tick_state fs)^[k] (log_monitor_init gsk fs targets))
      = get_initial_lines (log_monitor_init gsk fs targets) := by
  induction k with
  | zero => rfl
  | succ n ih =>
    rw [Function.iterate_succ_apply']
    rw [get_initial_lines, tick_state_initial_lines]
    exact ih

/-! ### C2 (code bug) and C3 (corrected) -/

/-- C2, actual behavior of the code at the failing input: the live file holds
`"A\nB\nC"` — the newline-terminated lines `A` and `B` followed by the unterminated
fragment `C` — and the recorded offset is `0`.  The incremental read invokes the callback
for `A`, `B` AND the fragment `C` (the final `std::getline` extracts characters, hits
end-of-file and sets only `eofbit`, so the loop body still runs), and the recorded offset
becomes `-1` (`tellg()` constructs a sentry on a stream with `eofbit` set, which sets
`failbit` and makes `tellg()` return `-1`), not the position `4` immediately after `B`'s
terminator.  This contradicts the specified behavior (callback for `A` and `B` only,
offset = position after `B`). -/
theorem C2_partial_line_bug :
    (call_callback (single_fs "app.txt" ("A\nB\nC".toList)) (single_state "app.txt" 0)
        "app.txt").2 = ["A", "B", "C"]
    ∧ (call_callback (single_fs "app.txt" ("A\nB\nC".toList)) (single_state "app.txt" 0)
        "app.txt").1.read_position "app.txt" = some (-1) := by
  constructor <;> decide

/-- C3 counterexample: the claim "no offset entry is created for that path" is false.
With a filesystem on which no file can be opened, the construction-time scan of
`"app.1.txt"` still creates an offset entry for `"app.1.txt"` (holding the
default-constructed stream position `0`): the assignment
`read_position_[file_path] = read_position;` at log_monitor.hpp:91 runs unconditionally
after the read loop, whether or not the stream opened. -/
theorem C3_offset_entry_created_counterexample :
    (add_initial_lines gsk_len (fun _ => none) ⟨[], fun _ => none, []⟩
      "app.1.txt").read_position "app.1.txt" ≠ none := by
  decide

/-- C3 amended: if a file cannot be opened during the construction-time historical scan,
no lines are processed from it (the buffer is unchanged), but an offset entry IS created
for that path, holding the default-constructed stream position `0`. -/
theorem C3_missing_file_amended (gsk : SortKeyExtractor) (fs : String → Option Content)
    (st : State) (path : String) (h : fs path = none) :
    (add_initial_lines gsk fs st path).initial_lines = st.initial_lines
    ∧ (add_initial_lines gsk fs st path).read_position path = some 0 := by
  rw [add_initial_lines, h]
  exact ⟨rfl, by simp [set_read_position]⟩

/-- C3 witness: the amended behavior at a concrete input. -/
theorem C3_missing_file_witness :
    (add_initial_lines gsk_len (fun _ => none) ⟨[], fun _ => none, []⟩
      "app.txt").initial_lines = []
    ∧ (add_initial_lines gsk_len (fun _ => none) ⟨[], fun _ => none, []⟩
      "app.txt").read_position "app.txt" = some 0 :=
  C3_missing_file_amended gsk_len (fun _ => none) ⟨[], fun _ => none, []⟩ "app.txt" rfl

/-! ### C4 -/

/-- C4: the seek rule of the incremental read and its consequence for truncation.
Starting with no recorded offset and live file `"A\nB\n"`, the read delivers `A`, `B`
and records the byte position just after `B`'s terminator.  (i) Truncation: when the file
is truncated to zero length and rewritten with line `D` (new size ≤ recorded offset), the
recorded offset is NOT strictly less than the current size, so reading begins from the
start of the file: the callback fires for `D` exactly (not again for `A` or `B`), and the
offset becomes `D`'s terminated length.  (ii) Growth: when instead the file grows to
`"A\nB\nE\n"`, the recorded offset IS strictly less than the current size, the stream
seeks to that offset, and the read delivers exactly the new suffix `E`. -/
theorem C4_seek_and_truncation (A B D E : String) (path : String) (st : State)
    (fs1 fs2 fs3 : String → Option Content)
    (hA : '\n' ∉ A.toList) (hB : '\n' ∉ B.toList) (hD : '\n' ∉ D.toList)
    (hE : '\n' ∉ E.toList)
    (hshrink : D.toList.length + 1 ≤ A.toList.length + B.toList.length + 2)
    (hrp0 : st.read_position path = none)
    (hfs1 : fs1 path = some (encode_lines [A, B] none))
    (hfs2 : fs2 path = some (encode_lines [D] none))
    (hfs3 : fs3 path = some (encode_lines [A, B, E] none)) :
    (call_callback fs1 st path).2 = [A, B]
    ∧ (call_callback fs1 st path).1.read_position path
        = some (((A.toList.length + B.toList.length + 2 : Nat)) : Int)
    ∧ (call_callback fs2 (call_callback fs1 st path).1 path).2 = [D]
    ∧ (call_callback fs2 (call_callback fs1 st path).1 path).1.read_position path
        = some (((D.toList.length + 1 : Nat)) : Int)
    ∧ (call_callback fs3 (call_callback fs1 st path).1 path).2 = [E]
    ∧ (call_callback fs3 (call_callback fs1 st path).1 path).1.read_position path
        = some (((A.toList.length + B.toList.length + E.toList.length + 3 : Nat)) : Int)
    := by
  have hAB : ∀ l ∈ [A, B], '\n' ∉ l.toList := by
    intro l hl
    simp only [List.mem_cons, List.not_mem_nil, or_false] at hl
    rcases hl with rfl | rfl
    exacts [hA, hB]
  have htAB : tlen [A, B] = A.toList.length + B.toList.length + 2 := by
    simp only [tlen, List.map_cons, List.map_nil, List.sum_cons, List.sum_nil]
    omega
  have hstep1 : call_callback fs1 st path
      = (set_read_position st path (((A.toList.length + B.toList.length + 2 : Nat)) : Int),
         [A, B]) := by
    rw [call_callback_no_entry fs1 st path _ hfs1 hrp0]
    rw [read_lines_aux_encode_terminated [A, B] hAB 0 0]
    rw [if_neg (by simp : ¬ ([A, B] : List String) = [])]
    rw [show (0 + tlen [A, B] : Nat) = A.toList.length + B.toList.length + 2 from by
      rw [Nat.zero_add, htAB]]
  have hrp1 : (call_callback fs1 st path).1.read_position path
      = some (((A.toList.length + B.toList.length + 2 : Nat)) : Int) := by
    rw [hstep1]
    exact set_read_position_self st path _
  have htD : tlen [D] = D.toList.length + 1 := by
    simp only [tlen, List.map_cons, List.map_nil, List.sum_cons, List.sum_nil]
    omega
  have hge : ¬ (((A.toList.length + B.toList.length + 2 : Nat) : Int)
      < ((encode_lines [D] none).length : Int)) := by
    rw [encode_lines_length_none, htD]
    push_cast
    omega
  have hstep2 : call_callback fs2 (call_callback fs1 st path).1 path
      = (set_read_position (call_callback fs1 st path).1 path
           (((D.toList.length + 1 : Nat)) : Int), [D]) := by
    rw [call_callback_large_offset fs2 _ path _ _ hfs2 hrp1 hge]
    rw [read_lines_aux_encode_terminated [D]
      (by intro l hl; simp only [List.mem_singleton] at hl; subst hl; exact hD) 0 0]
    rw [if_neg (by simp : ¬ ([D] : List String) = [])]
    rw [show (0 + tlen [D] : Nat) = D.toList.length + 1 from by rw [Nat.zero_add, htD]]
  have htABE : tlen [A, B] + tlen [E]
      = A.toList.length + B.toList.length + E.toList.length + 3 := by
    simp only [tlen, List.map_cons, List.map_nil, List.sum_cons, List.sum_nil]
    omega
  have hlenABE : (encode_lines [A, B, E] none).length
      = A.toList.length + B.toList.length + E.toList.length + 3 := by
    rw [encode_lines_length_none]
    simp only [tlen, List.map_cons, List.map_nil, List.sum_cons, List.sum_nil]
    omega
  have hlt : (((A.toList.length + B.toList.length + 2 : Nat)) : Int)
      < ((encode_lines [A, B, E] none).length : Int) := by
    rw [hlenABE]
    push_cast
    omega
  have hcat : ([A, B] : List String) ++ [E] = [A, B, E] := rfl
  have hstep3 : call_callback fs3 (call_callback fs1 st path).1 path
      = (set_read_position (call_callback fs1 st path).1 path
           (((A.toList.length + B.toList.length + E.toList.length + 3 : Nat)) : Int),
         [E]) := by
    rw [call_callback_seek fs3 _ path _ _ hfs3 hrp1 (by omega) hlt]
    rw [show (((A.toList.length + B.toList.length + 2 : Nat) : Int)).toNat
        = (A.toList.length + B.toList.length + 2 : Nat) from by omega]
    rw [show (A.toList.length + B.toList.length + 2 : Nat) = tlen [A, B] from htAB.symm]
    rw [← hcat, encode_lines_drop [A, B] [E] none]
    rw [read_lines_aux_encode_terminated [E]
      (by intro l hl; simp only [List.mem_singleton] at hl; subst hl; exact hE)
      (tlen [A, B]) 0]
    rw [if_neg (by simp : ¬ ([E] : List String) = [])]
    rw [show (tlen [A, B] + tlen [E] : Nat)
        = A.toList.length + B.toList.length + E.toList.length + 3 from htABE]
  refine ⟨by rw [hstep1], hrp1, by rw [hstep2], ?_, by rw [hstep3], ?_⟩
  · rw [hstep2]
    exact set_read_position_self _ path _
  · rw [hstep3]
    exact set_read_position_self _ path _

/-- C4 witness: the three phases at the concrete strings `A = "A"`, `B = "B"`, `D = "D"`,
`E = "E"`. -/
theorem C4_seek_and_truncation_witness :
    (call_callback (single_fs "t.txt" (encode_lines ["A", "B"] none))
        (no_entry_state "t.txt") "t.txt").2 = ["A", "B"]
    ∧ (call_callback (single_fs "t.txt" (encode_lines ["A", "B"] none))
        (no_entry_state "t.txt") "t.txt").1.read_position "t.txt"
        = some ((("A".toList.length + "B".toList.length + 2 : Nat)) : Int)
    ∧ (call_callback (single_fs "t.txt" (encode_lines ["D"] none))
        (call_callback (single_fs "t.txt" (encode_lines ["A", "B"] none))
          (no_entry_state "t.txt") "t.txt").1 "t.txt").2 = ["D"]
    ∧ (call_callback (single_fs "t.txt" (encode_lines ["D"] none))
        (call_callback (single_fs "t.txt" (encode_lines ["A", "B"] none))
          (no_entry_state "t.txt") "t.txt").1 "t.txt").1.read_position "t.txt"
        = some ((("D".toList.length + 1 : Nat)) : Int)
    ∧ (call_callback (single_fs "t.txt" (encode_lines ["A", "B", "E"] none))
        (call_callback (single_fs "t.txt" (encode_lines ["A", "B"] none))
          (no_entry_state "t.txt") "t.txt").1 "t.txt").2 = ["E"]
    ∧ (call_callback (single_fs "t.txt" (encode_lines ["A", "B", "E"] none))
        (call_callback (single_fs "t.txt" (encode_lines ["A", "B"] none))
          (no_entry_state "t.txt") "t.txt").1 "t.txt").1.read_position "t.txt"
        = some ((("A".toList.length + "B".toList.length + "E".toList.length + 3 : Nat))
            : Int) :=
  C4_seek_and_truncation "A" "B" "D" "E" "t.txt" (no_entry_state "t.txt")
    (single_fs "t.txt" (encode_lines ["A", "B"] none))
    (single_fs "t.txt" (encode_lines ["D"] none))
    (single_fs "t.txt" (encode_lines ["A", "B", "E"] none))
    (by decide) (by decide) (by decide) (by decide) (by decide) rfl rfl rfl rfl

/-! ### C8 -/

/-- C8: for lines whose sort-key extractor yields no key: (1) the historical-scan
insertion step never adds them to the buffer; (2) the offset recorded by the historical
scan for a file of newline-terminated lines is the file's full byte length, independently
of which lines carry keys — so the offset still advances past keyless lines; (3) during
an incremental read the callback fires with every line's raw text (the whole file here,
reading from the recorded start-of-file offset), since `call_callback` never consults the
extractor. -/
theorem C8_keyless_lines (gsk : SortKeyExtractor) :
    (∀ (buf : List Entry) (line : String), gsk line = none → scan_line gsk buf line = buf)
    ∧ (∀ (fs : String → Option Content) (st : State) (path : String) (ls : List String),
        fs path = some (encode_lines ls none) → (∀ l ∈ ls, '\n' ∉ l.toList) →
        (add_initial_lines gsk fs st path).read_position path
          = some (((encode_lines ls none).length : Nat) : Int))
    ∧ (∀ (fs : String → Option Content) (st : State) (path : String) (ls : List String),
        fs path = some (encode_lines ls none) → (∀ l ∈ ls, '\n' ∉ l.toList) →
        ls ≠ [] → st.read_position path = some 0 →
        (call_callback fs st path).2 = ls) := by
  refine ⟨?_, ?_, ?_⟩
  · intro buf line h
    simp [scan_line, add_initial_line, h]
  · intro fs st path ls hfs hls
    rw [add_initial_lines, hfs]
    dsimp only
    rw [read_lines_aux_encode_terminated ls hls 0 0]
    by_cases h : ls = []
    · subst h
      simp [set_read_position, encode_lines, tlen]
    · rw [if_neg h]
      simp [set_read_position, encode_lines_length_none]
  · intro fs st path ls hfs hls hne hrp
    have hpos : 0 < (encode_lines ls none).length := by
      rw [encode_lines_length_none]
      cases ls with
      | nil => exact absurd rfl hne
      | cons l ls' =>
        simp only [tlen, List.map_cons, List.sum_cons]
        omega
    rw [call_callback_seek fs st path (encode_lines ls none) 0 hfs hrp (le_refl 0)
      (by exact_mod_cast hpos)]
    simp [read_lines_aux_encode_terminated ls hls]

/-- C8 witness: with the always-keyless extractor `gsk_none`, (1) the keyless line `"w"`
is not inserted; (2) scanning the two-line file `"A\nB\n"` still records offset 4 (its
byte length); (3) an incremental read from offset 0 delivers both lines. -/
theorem C8_keyless_lines_witness :
    scan_line gsk_none [(3, "z")] "w" = [(3, "z")]
    ∧ (add_initial_lines gsk_none (single_fs "a.txt" (encode_lines ["A", "B"] none))
        (single_state "a.txt" 0) "a.txt").read_position "a.txt"
        = some (((encode_lines ["A", "B"] none).length : Nat) : Int)
    ∧ (call_callback (single_fs "a.txt" (encode_lines ["A", "B"] none))
        (single_state "a.txt" 0) "a.txt").2 = ["A", "B"] :=
  ⟨(C8_keyless_lines gsk_none).1 [(3, "z")] "w" rfl,
   (C8_keyless_lines gsk_none).2.1 (single_fs "a.txt" (encode_lines ["A", "B"] none))
     (single_state "a.txt" 0) "a.txt" ["A", "B"] (by decide) (by decide),
   (C8_keyless_lines gsk_none).2.2 (single_fs "a.txt" (encode_lines ["A", "B"] none))
     (single_state "a.txt" 0) "a.txt" ["A", "B"] (by decide) (by decide) (by decide)
     (by decide)⟩

/-! ### C10 -/

/-- C10: whenever `call_callback` opens the file successfully but the `getline` loop
produces zero lines (empty file, or a failed seek caused by a stored `-1` offset), the
offset recorded for the path is overwritten with the default-constructed stream position
`0`, discarding whatever offset was stored before. -/
theorem C10_zero_lines_offset_reset (fs : String → Option Content) (st : State)
    (path : String) (content : Content) (hopen : fs path = some content)
    (hnolines : (call_callback fs st path).2 = []) :
    (call_callback fs st path).1.read_position path = some 0 := by
  rw [call_callback, hopen] at hnolines ⊢
  dsimp only at hnolines ⊢
  cases hrp : st.read_position path with
  | none =>
    rw [hrp] at hnolines
    dsimp only at hnolines ⊢
    have h := read_lines_aux_of_nil_lines content [] 0 0 hnolines
    rw [h.1]
    exact set_read_position_self st path 0
  | some off =>
    rw [hrp] at hnolines
    dsimp only at hnolines ⊢
    by_cases hsz : off < (content.length : Int)
    · rw [if_pos hsz] at hnolines ⊢
      dsimp only at hnolines ⊢
      by_cases hneg : off < 0
      · rw [if_pos hneg]
        exact set_read_position_self st path 0
      · rw [if_neg hneg] at hnolines ⊢
        dsimp only at hnolines ⊢
        have h := read_lines_aux_of_nil_lines (content.drop off.toNat) [] off.toNat 0
          hnolines
        rw [h.1]
        exact set_read_position_self st path 0
    · rw [if_neg hsz] at hnolines ⊢
      dsimp only at hnolines ⊢
      have h := read_lines_aux_of_nil_lines content [] 0 0 hnolines
      rw [h.1]
      exact set_read_position_self st path 0

/-- C9: a file whose content ends with an unterminated fragment, with the timer polling
it.  The incremental read that consumes the fragment records the `tellg` failure value
`-1` as the file's offset.  With the file unchanged afterwards: the next tick sees
`-1 ≠ size` and re-reads, but `seekg(-1)` fails, so nothing is delivered and the offset
becomes the default `0`; the tick after that sees `0 ≠ size`, re-reads the whole file
from the start and delivers every line (the complete lines and the fragment) to the
callback again, returning the state to the `-1` configuration — a two-tick cycle.  Hence
on every subsequent tick the stored offset differs from the file's size and the file
keeps being re-read, even though no data was appended. -/
theorem C9_fragment_redelivery_cycle (ls : List String) (f : String) (path : String)
    (fs : String → Option Content) (st0 : State)
    (hls : ∀ l ∈ ls, '\n' ∉ l.toList) (hf : '\n' ∉ f.toList) (hfne : f.toList ≠ [])
    (hfs : fs path = some (encode_lines ls (some f)))
    (hrp0 : st0.read_position path = some 0)
    (hfiles : st0.files = [path]) :
    (call_callback fs st0 path).2 = ls ++ [f]
    ∧ (call_callback fs st0 path).1.read_position path = some (-1)
    ∧ (tick fs (call_callback fs st0 path).1).2 = []
    ∧ (tick fs (call_callback fs st0 path).1).1.read_position path = some 0
    ∧ (tick fs (tick fs (call_callback fs st0 path).1).1).2 = ls ++ [f]
    ∧ (tick fs (tick fs (call_callback fs st0 path).1).1).1
        = (call_callback fs st0 path).1
    ∧ ∀ k : Nat,
        ((tick_state fs)^[k] (call_callback fs st0 path).1).read_position path
          ≠ some (((encode_lines ls (some f)).length : Nat) : Int) := by
  have hlen : 0 < (encode_lines ls (some f)).length := by
    rw [encode_lines_length_some]
    have := List.length_pos.mpr hfne
    omega
  have hstep0 : call_callback fs st0 path
      = (set_read_position st0 path (-1), ls ++ [f]) := by
    rw [call_callback_seek fs st0 path _ 0 hfs hrp0 (le_refl 0) (by exact_mod_cast hlen)]
    simp [read_lines_aux_encode_fragment ls f hls hf hfne]
  have h1 : (call_callback fs st0 path).1 = set_read_position st0 path (-1) := by
    rw [hstep0]
  have hrp1 : (call_callback fs st0 path).1.read_position path = some (-1) := by
    rw [h1]
    exact set_read_position_self st0 path (-1)
  have hfiles1 : (call_callback fs st0 path).1.files = [path] := by
    rw [call_callback_files]
    exact hfiles
  have hcc1 : call_callback fs (call_callback fs st0 path).1 path
      = (set_read_position st0 path 0, []) := by
    rw [call_callback_failed_seek fs _ path (encode_lines ls (some f)) (-1) hfs hrp1
      (by omega)]
    rw [h1, set_read_position_collapse]
  have htick1 : tick fs (call_callback fs st0 path).1
      = (set_read_position st0 path 0, []) := by
    rw [tick, hfiles1, List.foldl_cons, List.foldl_nil]
    rw [tick_step_run fs _ [] path (encode_lines ls (some f)) (-1) hfs hrp1 (by omega)]
    rw [hcc1]
    simp
  have hrp2' : (set_read_position st0 path 0).read_position path = some 0 :=
    set_read_position_self st0 path 0
  have hfiles2 : (set_read_position st0 path 0).files = [path] := by
    rw [set_read_position_files]
    exact hfiles
  have hcc2 : call_callback fs (set_read_position st0 path 0) path
      = (set_read_position st0 path (-1), ls ++ [f]) := by
    rw [call_callback_seek fs _ path (encode_lines ls (some f)) 0 hfs hrp2' (le_refl 0)
      (by exact_mod_cast hlen)]
    simp [read_lines_aux_encode_fragment ls f hls hf hfne, set_read_position_collapse]
  have htick2' : tick fs (set_read_position st0 path 0)
      = (set_read_position st0 path (-1), ls ++ [f]) := by
    rw [tick, hfiles2, List.foldl_cons, List.foldl_nil]
    rw [tick_step_run fs _ [] path (encode_lines ls (some f)) 0 hfs hrp2' (by omega)]
    rw [hcc2]
    simp
  refine ⟨by rw [hstep0], hrp1, by rw [htick1], ?_, ?_, ?_, ?_⟩
  · rw [htick1]
    exact hrp2'
  · rw [htick1]
    dsimp only
    rw [htick2']
  · rw [htick1]
    dsimp only
    rw [htick2']
    dsimp only
    exact h1.symm
  · have hT1 : tick_state fs (call_callback fs st0 path).1
        = set_read_position st0 path 0 := by
      rw [tick_state, htick1]
    have hT2 : tick_state fs (set_read_position st0 path 0)
        = set_read_position st0 path (-1) := by
      rw [tick_state, htick2']
    intro k
    have horbit : ∀ n : Nat,
        (tick_state fs)^[n] (call_callback fs st0 path).1 = (call_callback fs st0 path).1
        ∨ (tick_state fs)^[n] (call_callback fs st0 path).1
            = set_read_position st0 path 0 := by
      intro n
      induction n with
      | zero => exact Or.inl rfl
      | succ m ih =>
        rw [Function.iterate_succ_apply']
        rcases ih with h | h
        · rw [h, hT1]
          exact Or.inr rfl
        · rw [h, hT2]
          exact Or.inl h1.symm
    rcases horbit k with h | h <;> rw [h]
    · rw [hrp1]
      simp only [ne_eq, Option.some.injEq]
      omega
    · rw [set_read_position_self]
      simp only [ne_eq, Option.some.injEq]
      omega

/-- C9 witness: concrete instance with one complete line `"A"` and the unterminated
fragment `"C"` in the file `"t.txt"`, starting from a recorded offset `0`. -/
theorem C9_fragment_redelivery_cycle_witness :
    (call_callback (single_fs "t.txt" (encode_lines ["A"] (some "C")))
        (single_state "t.txt" 0) "t.txt").2 = ["A"] ++ ["C"]
    ∧ (call_callback (single_fs "t.txt" (encode_lines ["A"] (some "C")))
        (single_state "t.txt" 0) "t.txt").1.read_position "t.txt" = some (-1)
    ∧ (tick (single_fs "t.txt" (encode_lines ["A"] (some "C")))
        (call_callback (single_fs "t.txt" (encode_lines ["A"] (some "C")))
          (single_state "t.txt" 0) "t.txt").1).2 = []
    ∧ (tick (single_fs "t.txt" (encode_lines ["A"] (some "C")))
        (call_callback (single_fs "t.txt" (encode_lines ["A"] (some "C")))
          (single_state "t.txt" 0) "t.txt").1).1.read_position "t.txt" = some 0
    ∧ (tick (single_fs "t.txt" (encode_lines ["A"] (some "C")))
        (tick (single_fs "t.txt" (encode_lines ["A"] (some "C")))
          (call_callback (single_fs "t.txt" (encode_lines ["A"] (some "C")))
            (single_state "t.txt" 0) "t.txt").1).1).2 = ["A"] ++ ["C"]
    ∧ (tick (single_fs "t.txt" (encode_lines ["A"] (some "C")))
        (tick (single_fs "t.txt" (encode_lines ["A"] (some "C")))
          (call_callback (single_fs "t.txt" (encode_lines ["A"] (some "C")))
            (single_state "t.txt" 0) "t.txt").1).1).1
        = (call_callback (single_fs "t.txt" (encode_lines ["A"] (some "C")))
            (single_state "t.txt" 0) "t.txt").1
    ∧ ∀ k : Nat,
        ((tick_state (single_fs "t.txt" (encode_lines ["A"] (some "C"))))^[k]
            (call_callback (single_fs "t.txt" (encode_lines ["A"] (some "C")))
              (single_state "t.txt" 0) "t.txt").1).read_position "t.txt"
          ≠ some (((encode_lines ["A"] (some "C")).length : Nat) : Int) :=
  C9_fragment_redelivery_cycle ["A"] "C" "t.txt"
    (single_fs "t.txt" (encode_lines ["A"] (some "C"))) (single_state "t.txt" 0)
    (by decide) (by decide) (by decide) rfl rfl rfl

/-- C10 witness: the file `"X\n"` exists but the stored offset is the failure value `-1`;
the seek fails, the read produces zero lines, and the stored offset becomes `0`. -/
theorem C10_zero_lines_offset_reset_witness :
    (call_callback (single_fs "a.txt" ("X\n".toList)) (single_state "a.txt" (-1))
        "a.txt").1.read_position "a.txt" = some 0 :=
  C10_zero_lines_offset_reset (single_fs "a.txt" ("X\n".toList))
    (single_state "a.txt" (-1)) "a.txt" ("X\n".toList) (by decide) (by decide)

end LogMonitor
